import Mathlib

/-!
Verification of the process-tree index of `sen/tui/widgets/info.py`
(classes `Process` and `ProcessList`).

The snapshot rows returned by `container.top()` are string-keyed dicts with
fields `PID`, `PPID`, `COMMAND`; the Python code never converts these values
to integers, it only compares them and uses them as dict keys, so we model
all three fields as strings.

CPython object identity: class `Process` defines neither `__eq__` nor
`__hash__`, so `list.index` (used by `get_next_sibling` / `get_prev_sibling`)
compares its elements to the argument by object identity.  `ProcessList`
wraps every row in a fresh `Process` object, so identity of the wrapped
objects coincides with their position in the input sequence.  We model this
with an `oid` field carrying that position; structural equality on the
modelled `Process` then coincides with CPython identity for the objects a
built `ProcessList` owns.

Python exceptions that the modelled fragment can raise are made explicit
with `Except PyErr`; `try/except` blocks that swallow an exception are
translated to the `Option` value the surrounding function returns.
-/

/-- One row of the `container.top()` response: a dict exposing the
string-valued keys `PID`, `PPID` and `COMMAND`. -/
structure TopRow where
  PID : String
  PPID : String
  COMMAND : String
deriving DecidableEq, Repr

/-- The Python exceptions the modelled fragment can raise:
`IndexError` (out-of-range sequence subscript) and
`ValueError` (`list.index` on an absent element). -/
inductive PyErr where
  | indexError
  | valueError
deriving DecidableEq, Repr

instance {ε α : Type} [DecidableEq ε] [DecidableEq α] : DecidableEq (Except ε α) := fun
  | .ok a, .ok b =>
    if h : a = b then isTrue (by rw [h]) else isFalse (by simp [h])
  | .ok _, .error _ => isFalse (by simp)
  | .error _, .ok _ => isFalse (by simp)
  | .error e, .error f =>
    if h : e = f then isTrue (by rw [h]) else isFalse (by simp [h])

/-- Model of class `Process` (info.py:142-167): wraps one raw row.  The
`oid` field models CPython object identity (see the module docstring): a
built `ProcessList` assigns each wrapped row its position in the input. -/
structure Process where
  oid : Nat
  data : TopRow
deriving DecidableEq, Repr

/-- Property `Process.pid`: `self.data["PID"]`. -/
def Process.pid (p : Process) : String := p.data.PID

/-- Property `Process.ppid`: `self.data["PPID"]`. -/
def Process.ppid (p : Process) : String := p.data.PPID

/-- Property `Process.command`: `self.data["COMMAND"]`. -/
def Process.command (p : Process) : String := p.data.COMMAND

/-- Python `list.index`: position of the first element equal to `x`, or
`ValueError` when `x` does not occur.  For `Process` elements the equality
used here coincides with CPython identity (see `Process.oid`). -/
def pyIndex {α : Type} [DecidableEq α] : List α → α → Except PyErr Nat
  | [], _ => .error .valueError
  | y :: ys, x => if y = x then .ok 0 else (pyIndex ys x).map (· + 1)

/-- The wrapping loop `self.data = [Process(x) for x in data]` of
`ProcessList.__init__`, assigning each fresh `Process` object its position
as identity. -/
def attachOids : Nat → List TopRow → List Process
  | _, [] => []
  | i, r :: rs => { oid := i, data := r } :: attachOids (i + 1) rs

/-- The dict comprehension `{x.pid: [] for x in self.data}` of
`ProcessList.__init__`: an empty bucket for every pid of the snapshot
(dicts are modelled as partial functions from keys). -/
def nestingInit (data : List Process) : String → Option (List Process) :=
  fun k => if k ∈ data.map Process.pid then some [] else none

/-- One iteration of the nesting loop of `ProcessList.__init__`:
`try: self._nesting[x.ppid].append(x) except KeyError: pass` — append `x`
to the bucket keyed by `x.ppid` when that key exists, else leave the dict
unchanged. -/
def nestingAdd (m : String → Option (List Process)) (x : Process) :
    String → Option (List Process) :=
  fun k => if k = x.ppid then (m k).map (fun l => l ++ [x]) else m k

/-- The whole nesting construction of `ProcessList.__init__`: the
comprehension followed by the appending loop over `self.data` in order. -/
def buildNesting (data : List Process) : String → Option (List Process) :=
  data.foldl nestingAdd (nestingInit data)

/-- The dict comprehension `{x.pid: x for x in self.data}` of
`ProcessList.__init__` (later entries overwrite earlier ones). -/
def buildPidIndex (data : List Process) : String → Option Process :=
  data.foldl (fun m x => fun k => if k = x.pid then some x else m k) (fun _ => none)

/-- Model of class `ProcessList` (info.py:170-228).  Its attributes
`_nesting`, `_pids` and `_pid_index` are computed by `__init__` purely from
`self.data`; we expose them as the functions below. -/
structure ProcessList where
  data : List Process
deriving DecidableEq, Repr

/-- Constructor `ProcessList(data)` (info.py:175-186): wrap each raw row in a fresh
`Process` object; the derived attributes are the functions below. -/
def ProcessList.build (rows : List TopRow) : ProcessList :=
  ⟨attachOids 0 rows⟩

/-- Attribute `self._nesting` of `ProcessList`. -/
def ProcessList.nesting (pl : ProcessList) : String → Option (List Process) :=
  buildNesting pl.data

/-- Attribute `self._pids = [x.pid for x in self.data]` of `ProcessList`. -/
def ProcessList.pids (pl : ProcessList) : List String :=
  pl.data.map Process.pid

/-- Attribute `self._pid_index` of `ProcessList`. -/
def ProcessList.pid_index (pl : ProcessList) : String → Option Process :=
  buildPidIndex pl.data

/-- Method `ProcessList.get_parent_process` (info.py:188-189):
`self._pid_index.get(process.ppid, None)`. -/
def ProcessList.get_parent_process (pl : ProcessList) (process : Process) : Option Process :=
  pl.pid_index process.ppid

/-- Method `ProcessList.get_root_process` (info.py:191-194): filter the records
whose `ppid` is not in `self._pids`, then subscript the result with `[0]` —
an `IndexError` when the filtered list is empty. -/
def ProcessList.get_root_process (pl : ProcessList) : Except PyErr Process :=
  match pl.data.filter (fun x => !decide (x.ppid ∈ pl.pids)) with
  | [] => .error .indexError
  | x :: _ => .ok x

/-- Method `ProcessList.get_first_child_process` (info.py:196-200):
`self._nesting[process.pid][0]` with `KeyError` and `IndexError` both
swallowed into `None`. -/
def ProcessList.get_first_child_process (pl : ProcessList) (process : Process) :
    Option Process :=
  match pl.nesting process.pid with
  | none => none
  | some children => children.head?

/-- Method `ProcessList.get_last_child_process` (info.py:202-206):
`self._nesting[process.pid][-1]` with `KeyError` and `IndexError` both
swallowed into `None`. -/
def ProcessList.get_last_child_process (pl : ProcessList) (process : Process) :
    Option Process :=
  match pl.nesting process.pid with
  | none => none
  | some children => children.getLast?

/-- Method `ProcessList.get_next_sibling` (info.py:208-216):
`children = self._nesting.get(process.ppid, [])`; empty bucket returns
`None`; `children[children.index(process) + 1]` with only `IndexError`
caught — the `ValueError` of `list.index` propagates. -/
def ProcessList.get_next_sibling (pl : ProcessList) (process : Process) :
    Except PyErr (Option Process) :=
  let children := (pl.nesting process.ppid).getD []
  if children.length ≤ 0 then .ok none
  else
    match pyIndex children process with
    | .error e => .error e
    | .ok i =>
      match children[i + 1]? with
      | none => .ok none
      | some p => .ok (some p)

/-- Method `ProcessList.get_prev_sibling` (info.py:218-228): like
`get_next_sibling` but with `prev_idx = children.index(process) - 1`,
returning `None` when `prev_idx < 0`; the final `children[prev_idx]`
subscript is unguarded. -/
def ProcessList.get_prev_sibling (pl : ProcessList) (process : Process) :
    Except PyErr (Option Process) :=
  let children := (pl.nesting process.ppid).getD []
  if children.length ≤ 0 then .ok none
  else
    match pyIndex children process with
    | .error e => .error e
    | .ok i =>
      if (i : Int) - 1 < 0 then .ok none
      else
        match children[i - 1]? with
        | none => .error .indexError
        | some p => .ok (some p)

/-- Modelled from the spec (no counterpart exists anywhere in the source,
which performs no validation): the spec's notion of a string being
"integer-parseable", i.e. accepted by Python `int()` — an optional sign
followed by at least one digit. -/
def isIntParseable (s : String) : Bool :=
  let chars :=
    match s.data with
    | '-' :: rest => rest
    | '+' :: rest => rest
    | cs => cs
  !chars.isEmpty && chars.all Char.isDigit

/-! ### Characterization lemmas for the constructed attributes -/

theorem attachOids_map_oid (i : Nat) (rs : List TopRow) :
    (attachOids i rs).map Process.oid = List.range' i rs.length := by
  induction rs generalizing i with
  | nil => rfl
  | cons r rs ih => simp [attachOids, List.range'_succ, ih, Process.oid]

theorem attachOids_map_data (i : Nat) (rs : List TopRow) :
    (attachOids i rs).map Process.data = rs := by
  induction rs generalizing i with
  | nil => rfl
  | cons r rs ih => simp [attachOids, ih]

theorem build_data_nodup (rows : List TopRow) : (ProcessList.build rows).data.Nodup := by
  apply List.Nodup.of_map Process.oid
  rw [ProcessList.build, attachOids_map_oid]
  exact List.nodup_range' 0 rows.length 1

theorem mem_pids {pl : ProcessList} {k : String} :
    k ∈ pl.pids ↔ ∃ x ∈ pl.data, x.pid = k := by
  simp [ProcessList.pids]

theorem foldl_nestingAdd (l : List Process) (m : String → Option (List Process)) (k : String) :
    (l.foldl nestingAdd m) k = (m k).map (· ++ l.filter (fun x => decide (x.ppid = k))) := by
  induction l generalizing m with
  | nil => cases h : m k <;> simp [h]
  | cons x l ih =>
    rw [List.foldl_cons, ih]
    by_cases hk : k = x.ppid
    · subst hk
      rw [List.filter_cons_of_pos (by simp)]
      simp only [nestingAdd, if_pos rfl]
      cases h : m x.ppid <;> simp [h]
    · have hk2 : ¬ (x.ppid = k) := fun h => hk h.symm
      rw [List.filter_cons_of_neg (by simp [hk2])]
      simp [nestingAdd, hk]

theorem nesting_eq (pl : ProcessList) (k : String) :
    pl.nesting k =
      if k ∈ pl.pids then some (pl.data.filter (fun x => decide (x.ppid = k))) else none := by
  rw [ProcessList.nesting, buildNesting, foldl_nestingAdd, nestingInit]
  by_cases h : k ∈ pl.data.map Process.pid
  · simp [h, ProcessList.pids]
  · simp [h, ProcessList.pids]

theorem mem_children_iff {pl : ProcessList} {k : String} {x : Process} :
    x ∈ pl.data.filter (fun y => decide (y.ppid = k)) ↔ x ∈ pl.data ∧ x.ppid = k := by
  simp [List.mem_filter]

theorem getLast?_cons_or {α : Type} (x : α) (t : List α) :
    (x :: t).getLast? = t.getLast?.or (some x) := by
  induction t with
  | nil => rfl
  | cons y t ih =>
    rw [List.getLast?_cons_cons]
    cases h : (y :: t).getLast? with
    | none => simp at h
    | some v => rfl

theorem foldl_pidIndexAdd (l : List Process) (m : String → Option Process) (k : String) :
    (l.foldl (fun m x => fun k => if k = x.pid then some x else m k) m) k =
      ((l.filter (fun x => decide (x.pid = k))).getLast?).or (m k) := by
  induction l generalizing m with
  | nil => simp
  | cons x l ih =>
    rw [List.foldl_cons, ih]
    by_cases hk : k = x.pid
    · subst hk
      rw [List.filter_cons_of_pos (by simp), getLast?_cons_or]
      simp [Option.or_assoc]
    · have hk2 : ¬ (x.pid = k) := fun h => hk h.symm
      rw [List.filter_cons_of_neg (by simp [hk2])]
      simp [hk]

theorem pid_index_eq (pl : ProcessList) (k : String) :
    pl.pid_index k = (pl.data.filter (fun x => decide (x.pid = k))).getLast? := by
  rw [ProcessList.pid_index, buildPidIndex, foldl_pidIndexAdd]
  simp

/-! ### Lemmas about the modelled `list.index` -/

theorem pyIndex_mem {α : Type} [DecidableEq α] {l : List α} {x : α} (h : x ∈ l) :
    ∃ i, pyIndex l x = .ok i ∧ l[i]? = some x := by
  induction l with
  | nil => cases h
  | cons y ys ih =>
    by_cases hy : y = x
    · exact ⟨0, by simp [pyIndex, hy], by simp [hy]⟩
    · have hx : x ∈ ys := by
        cases List.mem_cons.1 h with
        | inl h0 => exact absurd h0.symm hy
        | inr h0 => exact h0
      obtain ⟨i, h1, h2⟩ := ih hx
      exact ⟨i + 1, by simp [pyIndex, hy, h1, Except.map], by simpa using h2⟩

theorem pyIndex_not_mem {α : Type} [DecidableEq α] {l : List α} {x : α} (h : x ∉ l) :
    pyIndex l x = .error .valueError := by
  induction l with
  | nil => rfl
  | cons y ys ih =>
    have hy : y ≠ x := fun e => h (e ▸ List.mem_cons_self y ys)
    have hx : x ∉ ys := fun e => h (List.mem_cons_of_mem _ e)
    simp [pyIndex, hy, ih hx, Except.map]

theorem pyIndex_of_getElem {α : Type} [DecidableEq α] {l : List α} (hnd : l.Nodup) {i : Nat}
    {x : α} (h : l[i]? = some x) : pyIndex l x = .ok i := by
  induction l generalizing i with
  | nil => simp at h
  | cons y ys ih =>
    cases i with
    | zero =>
      simp at h
      subst h
      simp [pyIndex]
    | succ i =>
      rw [List.getElem?_cons_succ] at h
      have hx : x ∈ ys := by
        obtain ⟨hl, he⟩ := List.getElem?_eq_some_iff.1 h
        exact he ▸ List.getElem_mem hl
      have hy : y ≠ x := fun e => (List.nodup_cons.1 hnd).1 (e ▸ hx)
      simp [pyIndex, hy, ih (List.nodup_cons.1 hnd).2 h, Except.map]

theorem pyIndex_ok_getElem {α : Type} [DecidableEq α] {l : List α} {x : α} {i : Nat}
    (h : pyIndex l x = .ok i) : l[i]? = some x := by
  induction l generalizing i with
  | nil => simp [pyIndex] at h
  | cons y ys ih =>
    by_cases hy : y = x
    · simp [pyIndex, hy] at h
      subst h
      simp [hy]
    · simp [pyIndex, hy] at h
      cases hp : pyIndex ys x with
      | error e => rw [hp] at h; simp [Except.map] at h
      | ok j =>
        rw [hp] at h
        simp [Except.map] at h
        subst h
        simpa using ih hp

/-! ### Characterizations of the sibling queries -/

theorem next_sibling_no_bucket {pl : ProcessList} {x : Process} (h : x.ppid ∉ pl.pids) :
    pl.get_next_sibling x = .ok none := by
  rw [ProcessList.get_next_sibling]
  rw [nesting_eq, if_neg h]
  rfl

theorem prev_sibling_no_bucket {pl : ProcessList} {x : Process} (h : x.ppid ∉ pl.pids) :
    pl.get_prev_sibling x = .ok none := by
  rw [ProcessList.get_prev_sibling]
  rw [nesting_eq, if_neg h]
  rfl

theorem next_sibling_eq_of_index {pl : ProcessList} {x : Process} {b : List Process} {i : Nat}
    (hb : pl.nesting x.ppid = some b) (hne : b ≠ []) (hi : pyIndex b x = .ok i) :
    pl.get_next_sibling x = .ok b[i + 1]? := by
  rw [ProcessList.get_next_sibling]
  rw [hb]
  simp only [Option.getD_some]
  rw [if_neg (by simpa [Nat.le_zero, List.length_eq_zero] using hne)]
  simp only [hi]
  cases h2 : b[i + 1]? with
  | none => simp [h2]
  | some p => simp [h2]

theorem prev_sibling_eq_of_index {pl : ProcessList} {x : Process} {b : List Process} {i : Nat}
    (hb : pl.nesting x.ppid = some b) (hne : b ≠ []) (hi : pyIndex b x = .ok i) :
    pl.get_prev_sibling x = .ok (if i = 0 then none else b[i - 1]?) := by
  rw [ProcessList.get_prev_sibling]
  rw [hb]
  simp only [Option.getD_some]
  rw [if_neg (by simpa [Nat.le_zero, List.length_eq_zero] using hne)]
  simp only [hi]
  by_cases h0 : i = 0
  · subst h0
    norm_num
  · have hlt : i < b.length := by
      have := pyIndex_ok_getElem hi
      exact (List.getElem?_eq_some_iff.1 this).1
    have hlt2 : i - 1 < b.length := lt_of_le_of_lt (Nat.sub_le i 1) hlt
    have h3 : b[i - 1]? = some (b.get ⟨i - 1, hlt2⟩) := List.getElem?_eq_getElem hlt2
    rw [if_neg (by simp; omega), h3, if_neg h0]

example : ProcessList.get_root_process (ProcessList.build
    [⟨"1", "0", "init"⟩, ⟨"2", "1", "sh"⟩]) =
    .ok ⟨0, "1", "0", "init"⟩ := by decide

example : ProcessList.get_root_process (ProcessList.build [⟨"1", "1", "loop"⟩]) =
    .error .indexError := by decide

example : ProcessList.get_first_child_process (ProcessList.build
    [⟨"1", "0", "init"⟩, ⟨"5", "1", "a"⟩, ⟨"6", "1", "b"⟩]) ⟨0, "1", "0", "init"⟩ =
    some ⟨1, "5", "1", "a"⟩ := by decide

example : ProcessList.get_next_sibling (ProcessList.build
    [⟨"1", "0", "init"⟩, ⟨"5", "1", "a"⟩, ⟨"6", "1", "b"⟩]) ⟨1, "5", "1", "a"⟩ =
    .ok (some ⟨2, "6", "1", "b"⟩) := by decide

example : ProcessList.get_prev_sibling (ProcessList.build
    [⟨"1", "0", "init"⟩, ⟨"5", "1", "a"⟩, ⟨"6", "1", "b"⟩]) ⟨1, "5", "1", "a"⟩ =
    .ok none := by decide

example : isIntParseable "123" = true := by decide
example : isIntParseable "-42" = true := by decide
example : isIntParseable "abc" = false := by decide
example : isIntParseable "" = false := by decide

theorem pid_mem_pids {pl : ProcessList} {x : Process} (h : x ∈ pl.data) :
    x.pid ∈ pl.pids :=
  mem_pids.2 ⟨x, h, rfl⟩

theorem nesting_some_of_mem {pl : ProcessList} {x : Process} (h : x ∈ pl.data)
    (hp : x.ppid ∈ pl.pids) :
    pl.nesting x.ppid =
      some (pl.data.filter (fun y => decide (y.ppid = x.ppid))) ∧
    x ∈ pl.data.filter (fun y => decide (y.ppid = x.ppid)) := by
  constructor
  · rw [nesting_eq, if_pos hp]
  · exact mem_children_iff.2 ⟨h, rfl⟩

theorem find?_eq_filter_head? {α : Type} (p : α → Bool) (l : List α) :
    l.find? p = (l.filter p).head? := by
  induction l with
  | nil => rfl
  | cons x l ih =>
    by_cases h : p x = true
    · rw [List.find?_cons_of_pos _ h, List.filter_cons_of_pos h, List.head?_cons]
    · rw [List.find?_cons_of_neg _ (by simpa using h), List.filter_cons_of_neg (by simpa using h), ih]

theorem head?_mem {α : Type} {l : List α} {x : α} (h : l.head? = some x) : x ∈ l := by
  cases l with
  | nil => simp at h
  | cons a t =>
    rw [List.head?_cons] at h
    exact (Option.some.inj h) ▸ List.mem_cons_self a t

theorem getLast?_mem {α : Type} {l : List α} {x : α} (h : l.getLast? = some x) : x ∈ l := by
  induction l with
  | nil => simp at h
  | cons a t ih =>
    rw [getLast?_cons_or] at h
    cases ht : t.getLast? with
    | none =>
      rw [ht] at h
      simp at h
      exact h ▸ List.mem_cons_self a t
    | some v =>
      rw [ht] at h
      simp at h
      exact List.mem_cons_of_mem _ (ih (h ▸ ht))

theorem first_child_eq_head? (pl : ProcessList) (p : Process) :
    pl.get_first_child_process p = ((pl.nesting p.pid).getD []).head? := by
  rw [ProcessList.get_first_child_process]
  cases hn : pl.nesting p.pid <;> simp

theorem last_child_eq_getLast? (pl : ProcessList) (p : Process) :
    pl.get_last_child_process p = ((pl.nesting p.pid).getD []).getLast? := by
  rw [ProcessList.get_last_child_process]
  cases hn : pl.nesting p.pid <;> simp

theorem parent_none_iff (pl : ProcessList) (x : Process) :
    pl.get_parent_process x = none ↔ x.ppid ∉ pl.pids := by
  rw [ProcessList.get_parent_process, pid_index_eq]
  rw [List.getLast?_eq_none_iff, List.filter_eq_nil_iff]
  constructor
  · intro h hm
    obtain ⟨y, hy, he⟩ := mem_pids.1 hm
    exact absurd (by simpa using he) (by simpa using h y hy)
  · intro h y hy
    simp only [decide_eq_true_eq]
    intro he
    exact h (mem_pids.2 ⟨y, hy, he⟩)

/-! ### Claims -/

/-- C1: the claim states that on a snapshot in which every record's ppid
equals some record's pid, `ProcessList.get_root_process` fails with
`NoRootFound` and never raises an out-of-range/indexing error.  The code
(info.py:191-194, carrying a `# FIXME: error handling` comment) instead
subscripts the empty candidate list with `[0]`, raising exactly the
out-of-range `IndexError` the claim rules out; no `NoRootFound` error
exists anywhere in the source.  This theorem evaluates the code at the
failing input `[{PID:"1",PPID:"1"}, {PID:"2",PPID:"1"}]`. -/
theorem C1_cyclic_root_lookup_raises_indexerror :
    (ProcessList.build [⟨"1", "1", "loop"⟩, ⟨"2", "1", "child"⟩]).get_root_process =
      .error PyErr.indexError ∧
    ∀ x ∈ (ProcessList.build [⟨"1", "1", "loop"⟩, ⟨"2", "1", "child"⟩]).data,
      x.ppid ∈ (ProcessList.build [⟨"1", "1", "loop"⟩, ⟨"2", "1", "child"⟩]).pids := by
  decide

/-- C2 counterexample: the claim states that a row whose pid is not
integer-parseable makes construction fail with `MalformedRecord` and no
index is produced.  `ProcessList.__init__` performs no validation at all:
on the row `{PID:"abc", PPID:"xyz", COMMAND:"cmd"}` (pid not
integer-parseable) construction succeeds and the full index is produced. -/
theorem C2_counterexample_no_validation :
    isIntParseable "abc" = false ∧
    (ProcessList.build [⟨"abc", "xyz", "cmd"⟩]).data = [⟨0, "abc", "xyz", "cmd"⟩] ∧
    (ProcessList.build [⟨"abc", "xyz", "cmd"⟩]).pids = ["abc"] := by
  decide

/-- C2 (amended): index construction never validates anything: for every
row sequence — integer-parseable or not — `ProcessList.__init__` succeeds
and produces an index wrapping exactly the input rows in order. -/
theorem C2_construction_total (rows : List TopRow) :
    (ProcessList.build rows).data.map Process.data = rows ∧
    (ProcessList.build rows).data.length = rows.length := by
  refine ⟨attachOids_map_data 0 rows, ?_⟩
  have := congrArg List.length (attachOids_map_data 0 rows)
  simpa using this

/-- C4: whenever the snapshot contains a record whose ppid is not among the
snapshot's pids, `get_root_process` returns the first such record in input
order (`List.find?` returns the first match). -/
theorem C4_root_is_first_candidate (rows : List TopRow) (r : Process)
    (h : (ProcessList.build rows).data.find?
        (fun x => !decide (x.ppid ∈ (ProcessList.build rows).pids)) = some r) :
    (ProcessList.build rows).get_root_process = .ok r := by
  rw [ProcessList.get_root_process]
  rw [find?_eq_filter_head?] at h
  cases hf : (ProcessList.build rows).data.filter
      (fun x => !decide (x.ppid ∈ (ProcessList.build rows).pids)) with
  | nil => rw [hf] at h; simp at h
  | cons a l =>
    rw [hf] at h
    simp at h
    rw [h]

/-- C4 witness: on `[{PID:"1",PPID:"9"}, {PID:"2",PPID:"8"}]` both records
qualify as roots and the first one in input order is returned. -/
theorem C4_witness :
    (ProcessList.build [⟨"1", "9", "a"⟩, ⟨"2", "8", "b"⟩]).data.find?
        (fun x => !decide (x.ppid ∈ (ProcessList.build [⟨"1", "9", "a"⟩, ⟨"2", "8", "b"⟩]).pids)) =
      some ⟨0, "1", "9", "a"⟩ ∧
    (ProcessList.build [⟨"1", "9", "a"⟩, ⟨"2", "8", "b"⟩]).get_root_process =
      .ok ⟨0, "1", "9", "a"⟩ :=
  ⟨by decide, C4_root_is_first_candidate _ _ (by decide)⟩

/-- C6: sibling order equals input order — the children bucket of each key
lists, in input order, exactly the records whose ppid equals that key; and
on `[{pid 1}, {pid 5, ppid 1}, {pid 6, ppid 1}]` the first child of pid 1
is pid 5, the next sibling of pid 5 is pid 6, and pid 6 has no next
sibling. -/
theorem C6_sibling_order_is_input_order :
    (∀ (rows : List TopRow) (k : String),
      (ProcessList.build rows).nesting k =
        if k ∈ (ProcessList.build rows).pids
        then some ((ProcessList.build rows).data.filter (fun x => decide (x.ppid = k)))
        else none) ∧
    (ProcessList.build [⟨"1", "0", "init"⟩, ⟨"5", "1", "a"⟩, ⟨"6", "1", "b"⟩]).get_first_child_process
        ⟨0, "1", "0", "init"⟩ = some ⟨1, "5", "1", "a"⟩ ∧
    (ProcessList.build [⟨"1", "0", "init"⟩, ⟨"5", "1", "a"⟩, ⟨"6", "1", "b"⟩]).get_next_sibling
        ⟨1, "5", "1", "a"⟩ = .ok (some ⟨2, "6", "1", "b"⟩) ∧
    (ProcessList.build [⟨"1", "0", "init"⟩, ⟨"5", "1", "a"⟩, ⟨"6", "1", "b"⟩]).get_next_sibling
        ⟨2, "6", "1", "b"⟩ = .ok none :=
  ⟨fun rows k => nesting_eq _ _, by decide, by decide, by decide⟩

/-- C7: `get_first_child_process` returns the first element of the
argument's children bucket and `get_last_child_process` its last element,
and the first-child query misses exactly when the bucket is absent or
empty. -/
theorem C7_first_last_child_bucket (rows : List TopRow) (p : Process) :
    (ProcessList.build rows).get_first_child_process p =
      (((ProcessList.build rows).nesting p.pid).getD []).head? ∧
    (ProcessList.build rows).get_last_child_process p =
      (((ProcessList.build rows).nesting p.pid).getD []).getLast? ∧
    ((ProcessList.build rows).get_first_child_process p = none ↔
      ((ProcessList.build rows).nesting p.pid).getD [] = []) := by
  refine ⟨first_child_eq_head? _ _, last_child_eq_getLast? _ _, ?_⟩
  rw [first_child_eq_head?, List.head?_eq_none_iff]

/-- C8: the pid index is last-wins — `get_parent_process` looks the
argument's ppid up in a mapping binding each pid to the last record of the
snapshot carrying it, and misses exactly when that ppid is not among the
snapshot's pids. -/
theorem C8_pid_index_last_wins (rows : List TopRow) (x : Process) :
    (ProcessList.build rows).get_parent_process x =
      ((ProcessList.build rows).data.filter (fun y => decide (y.pid = x.ppid))).getLast? ∧
    ((ProcessList.build rows).get_parent_process x = none ↔
      x.ppid ∉ (ProcessList.build rows).pids) :=
  ⟨pid_index_eq _ _, parent_none_iff _ _⟩

/-- C3: every navigation query is total on the positions of a built index
(per the spec, a position is a record of the snapshot): the two sibling
queries — the only ones with a fallible code path — never raise for any
record of the snapshot, and each miss is the explicit `none` result: the
parent query misses exactly on a ppid outside the pid set, the child
queries exactly on an absent or empty bucket. -/
theorem C3_navigation_queries_total (rows : List TopRow) (x : Process)
    (hx : x ∈ (ProcessList.build rows).data) :
    (∀ e, (ProcessList.build rows).get_next_sibling x ≠ .error e) ∧
    (∀ e, (ProcessList.build rows).get_prev_sibling x ≠ .error e) ∧
    ((ProcessList.build rows).get_parent_process x = none ↔
      x.ppid ∉ (ProcessList.build rows).pids) ∧
    ((ProcessList.build rows).get_first_child_process x = none ↔
      ((ProcessList.build rows).nesting x.pid).getD [] = []) ∧
    ((ProcessList.build rows).get_last_child_process x = none ↔
      ((ProcessList.build rows).nesting x.pid).getD [] = []) := by
  refine ⟨?_, ?_, parent_none_iff _ _, ?_, ?_⟩
  · by_cases hp : x.ppid ∈ (ProcessList.build rows).pids
    · obtain ⟨hb, hxb⟩ := nesting_some_of_mem hx hp
      obtain ⟨i, hi, hgi⟩ := pyIndex_mem hxb
      rw [next_sibling_eq_of_index hb (List.ne_nil_of_mem hxb) hi]
      intro e he
      simp at he
    · rw [next_sibling_no_bucket hp]
      intro e he
      simp at he
  · by_cases hp : x.ppid ∈ (ProcessList.build rows).pids
    · obtain ⟨hb, hxb⟩ := nesting_some_of_mem hx hp
      obtain ⟨i, hi, hgi⟩ := pyIndex_mem hxb
      rw [prev_sibling_eq_of_index hb (List.ne_nil_of_mem hxb) hi]
      intro e he
      simp at he
    · rw [prev_sibling_no_bucket hp]
      intro e he
      simp at he
  · rw [first_child_eq_head?, List.head?_eq_none_iff]
  · rw [last_child_eq_getLast?, List.getLast?_eq_none_iff]

/-- C3 witness: the record with pid 5 of a concrete three-record snapshot
is a position of the built index, and every navigation query at it obeys
the totality statement. -/
theorem C3_witness :
    (⟨1, "5", "1", "a"⟩ : Process) ∈
      (ProcessList.build [⟨"1", "0", "init"⟩, ⟨"5", "1", "a"⟩, ⟨"6", "1", "b"⟩]).data ∧
    ((∀ e, (ProcessList.build [⟨"1", "0", "init"⟩, ⟨"5", "1", "a"⟩, ⟨"6", "1", "b"⟩]).get_next_sibling
        ⟨1, "5", "1", "a"⟩ ≠ .error e) ∧
     (∀ e, (ProcessList.build [⟨"1", "0", "init"⟩, ⟨"5", "1", "a"⟩, ⟨"6", "1", "b"⟩]).get_prev_sibling
        ⟨1, "5", "1", "a"⟩ ≠ .error e) ∧
     ((ProcessList.build [⟨"1", "0", "init"⟩, ⟨"5", "1", "a"⟩, ⟨"6", "1", "b"⟩]).get_parent_process
        ⟨1, "5", "1", "a"⟩ = none ↔
       Process.ppid ⟨1, "5", "1", "a"⟩ ∉
         (ProcessList.build [⟨"1", "0", "init"⟩, ⟨"5", "1", "a"⟩, ⟨"6", "1", "b"⟩]).pids) ∧
     ((ProcessList.build [⟨"1", "0", "init"⟩, ⟨"5", "1", "a"⟩, ⟨"6", "1", "b"⟩]).get_first_child_process
        ⟨1, "5", "1", "a"⟩ = none ↔
       ((ProcessList.build [⟨"1", "0", "init"⟩, ⟨"5", "1", "a"⟩, ⟨"6", "1", "b"⟩]).nesting
         (Process.pid ⟨1, "5", "1", "a"⟩)).getD [] = []) ∧
     ((ProcessList.build [⟨"1", "0", "init"⟩, ⟨"5", "1", "a"⟩, ⟨"6", "1", "b"⟩]).get_last_child_process
        ⟨1, "5", "1", "a"⟩ = none ↔
       ((ProcessList.build [⟨"1", "0", "init"⟩, ⟨"5", "1", "a"⟩, ⟨"6", "1", "b"⟩]).nesting
         (Process.pid ⟨1, "5", "1", "a"⟩)).getD [] = [])) :=
  ⟨by decide, C3_navigation_queries_total _ _ (by decide)⟩

/-- C5: next/prev sibling are mutually inverse where defined — if a record
of the snapshot has a following sibling, prev-of-next returns the record
itself, and symmetrically for a preceding sibling. -/
theorem C5_sibling_roundtrip (rows : List TopRow) (x y : Process)
    (hx : x ∈ (ProcessList.build rows).data) :
    ((ProcessList.build rows).get_next_sibling x = .ok (some y) →
      (ProcessList.build rows).get_prev_sibling y = .ok (some x)) ∧
    ((ProcessList.build rows).get_prev_sibling x = .ok (some y) →
      (ProcessList.build rows).get_next_sibling y = .ok (some x)) := by
  have bnd : ((ProcessList.build rows).data.filter
      (fun z => decide (z.ppid = x.ppid))).Nodup :=
    (build_data_nodup rows).filter _
  constructor
  · intro hnext
    by_cases hp : x.ppid ∈ (ProcessList.build rows).pids
    · obtain ⟨hb, hxb⟩ := nesting_some_of_mem hx hp
      obtain ⟨i, hi, hgi⟩ := pyIndex_mem hxb
      rw [next_sibling_eq_of_index hb (List.ne_nil_of_mem hxb) hi] at hnext
      have hy1 : ((ProcessList.build rows).data.filter
          (fun z => decide (z.ppid = x.ppid)))[i + 1]? = some y := by
        simpa using hnext
      have hymem : y ∈ (ProcessList.build rows).data.filter
          (fun z => decide (z.ppid = x.ppid)) := by
        obtain ⟨hl, he⟩ := List.getElem?_eq_some_iff.1 hy1
        exact he ▸ List.getElem_mem hl
      have hyp : y.ppid = x.ppid := (mem_children_iff.1 hymem).2
      have hyb : (ProcessList.build rows).nesting y.ppid =
          some ((ProcessList.build rows).data.filter (fun z => decide (z.ppid = x.ppid))) := by
        rw [hyp]
        exact hb
      have hiy := pyIndex_of_getElem bnd hy1
      rw [prev_sibling_eq_of_index hyb (List.ne_nil_of_mem hxb) hiy]
      simp [hgi]
    · rw [next_sibling_no_bucket hp] at hnext
      simp at hnext
  · intro hprev
    by_cases hp : x.ppid ∈ (ProcessList.build rows).pids
    · obtain ⟨hb, hxb⟩ := nesting_some_of_mem hx hp
      obtain ⟨i, hi, hgi⟩ := pyIndex_mem hxb
      rw [prev_sibling_eq_of_index hb (List.ne_nil_of_mem hxb) hi] at hprev
      by_cases h0 : i = 0
      · rw [if_pos h0] at hprev
        simp at hprev
      · rw [if_neg h0] at hprev
        have hy1 : ((ProcessList.build rows).data.filter
            (fun z => decide (z.ppid = x.ppid)))[i - 1]? = some y := by
          simpa using hprev
        have hymem : y ∈ (ProcessList.build rows).data.filter
            (fun z => decide (z.ppid = x.ppid)) := by
          obtain ⟨hl, he⟩ := List.getElem?_eq_some_iff.1 hy1
          exact he ▸ List.getElem_mem hl
        have hyp : y.ppid = x.ppid := (mem_children_iff.1 hymem).2
        have hyb : (ProcessList.build rows).nesting y.ppid =
            some ((ProcessList.build rows).data.filter (fun z => decide (z.ppid = x.ppid))) := by
          rw [hyp]
          exact hb
        have hiy := pyIndex_of_getElem bnd hy1
        rw [next_sibling_eq_of_index hyb (List.ne_nil_of_mem hxb) hiy]
        have hieq : i - 1 + 1 = i := Nat.succ_pred_eq_of_pos (Nat.pos_of_ne_zero h0)
        rw [hieq, hgi]
    · rw [prev_sibling_no_bucket hp] at hprev
      simp at hprev

/-- C5 witness: in a concrete snapshot the record with pid 6 has a
preceding sibling (pid 5): prev-of-6 is 5 and next-of-5 is 6. -/
theorem C5_witness :
    (⟨2, "6", "1", "b"⟩ : Process) ∈
      (ProcessList.build [⟨"1", "0", "init"⟩, ⟨"5", "1", "a"⟩, ⟨"6", "1", "b"⟩]).data ∧
    (((ProcessList.build [⟨"1", "0", "init"⟩, ⟨"5", "1", "a"⟩, ⟨"6", "1", "b"⟩]).get_next_sibling
        ⟨2, "6", "1", "b"⟩ = .ok (some ⟨1, "5", "1", "a"⟩) →
      (ProcessList.build [⟨"1", "0", "init"⟩, ⟨"5", "1", "a"⟩, ⟨"6", "1", "b"⟩]).get_prev_sibling
        ⟨1, "5", "1", "a"⟩ = .ok (some ⟨2, "6", "1", "b"⟩)) ∧
     ((ProcessList.build [⟨"1", "0", "init"⟩, ⟨"5", "1", "a"⟩, ⟨"6", "1", "b"⟩]).get_prev_sibling
        ⟨2, "6", "1", "b"⟩ = .ok (some ⟨1, "5", "1", "a"⟩) →
      (ProcessList.build [⟨"1", "0", "init"⟩, ⟨"5", "1", "a"⟩, ⟨"6", "1", "b"⟩]).get_next_sibling
        ⟨1, "5", "1", "a"⟩ = .ok (some ⟨2, "6", "1", "b"⟩))) :=
  ⟨by decide, C5_sibling_roundtrip _ _ _ (by decide)⟩

/-- C10: an orphan record — one of the snapshot whose ppid is not among
the snapshot's pids — lies in no children bucket; both of its sibling
queries return the explicit miss, and no child query ever returns it. -/
theorem C10_orphan_in_no_bucket (rows : List TopRow) (x : Process)
    (_hx : x ∈ (ProcessList.build rows).data)
    (hp : x.ppid ∉ (ProcessList.build rows).pids) :
    (∀ (k : String) (b : List Process),
      (ProcessList.build rows).nesting k = some b → x ∉ b) ∧
    (ProcessList.build rows).get_next_sibling x = .ok none ∧
    (ProcessList.build rows).get_prev_sibling x = .ok none ∧
    (∀ p : Process,
      (ProcessList.build rows).get_first_child_process p ≠ some x ∧
      (ProcessList.build rows).get_last_child_process p ≠ some x) := by
  have hbucket : ∀ (k : String) (b : List Process),
      (ProcessList.build rows).nesting k = some b → x ∉ b := by
    intro k b hkb hxb
    rw [nesting_eq] at hkb
    by_cases hk : k ∈ (ProcessList.build rows).pids
    · rw [if_pos hk] at hkb
      have hb := Option.some.inj hkb
      rw [← hb] at hxb
      exact hp ((mem_children_iff.1 hxb).2 ▸ hk)
    · rw [if_neg hk] at hkb
      exact Option.noConfusion hkb
  refine ⟨hbucket, next_sibling_no_bucket hp, prev_sibling_no_bucket hp, ?_⟩
  intro p
  constructor
  · intro he
    rw [first_child_eq_head?] at he
    cases hn : (ProcessList.build rows).nesting p.pid with
    | none => rw [hn] at he; simp at he
    | some b =>
      rw [hn] at he
      exact hbucket _ _ hn (head?_mem (by simpa using he))
  · intro he
    rw [last_child_eq_getLast?] at he
    cases hn : (ProcessList.build rows).nesting p.pid with
    | none => rw [hn] at he; simp at he
    | some b =>
      rw [hn] at he
      exact hbucket _ _ hn (getLast?_mem (by simpa using he))

/-- C10 witness: in the concrete snapshot `[{1,0},{5,1},{6,1}]` the record
with pid 1 is an orphan (ppid 0 is not a pid) and satisfies every clause
of the orphan claim. -/
theorem C10_witness :
    ((⟨0, "1", "0", "init"⟩ : Process) ∈
      (ProcessList.build [⟨"1", "0", "init"⟩, ⟨"5", "1", "a"⟩, ⟨"6", "1", "b"⟩]).data ∧
     Process.ppid ⟨0, "1", "0", "init"⟩ ∉
      (ProcessList.build [⟨"1", "0", "init"⟩, ⟨"5", "1", "a"⟩, ⟨"6", "1", "b"⟩]).pids) ∧
    ((∀ (k : String) (b : List Process),
        (ProcessList.build [⟨"1", "0", "init"⟩, ⟨"5", "1", "a"⟩, ⟨"6", "1", "b"⟩]).nesting k =
          some b → (⟨0, "1", "0", "init"⟩ : Process) ∉ b) ∧
     (ProcessList.build [⟨"1", "0", "init"⟩, ⟨"5", "1", "a"⟩, ⟨"6", "1", "b"⟩]).get_next_sibling
        ⟨0, "1", "0", "init"⟩ = .ok none ∧
     (ProcessList.build [⟨"1", "0", "init"⟩, ⟨"5", "1", "a"⟩, ⟨"6", "1", "b"⟩]).get_prev_sibling
        ⟨0, "1", "0", "init"⟩ = .ok none ∧
     (∀ p : Process,
       (ProcessList.build [⟨"1", "0", "init"⟩, ⟨"5", "1", "a"⟩, ⟨"6", "1", "b"⟩]).get_first_child_process
          p ≠ some ⟨0, "1", "0", "init"⟩ ∧
       (ProcessList.build [⟨"1", "0", "init"⟩, ⟨"5", "1", "a"⟩, ⟨"6", "1", "b"⟩]).get_last_child_process
          p ≠ some ⟨0, "1", "0", "init"⟩)) :=
  ⟨⟨by decide, by decide⟩, C10_orphan_in_no_bucket _ _ (by decide) (by decide)⟩

/-! ### Definitions for the preorder-traversal claim -/

/-- One step of the traversal the lazy tree renderer performs: from a
position to its first child or to its next sibling. -/
def navStep (pl : ProcessList) (x y : Process) : Prop :=
  pl.get_first_child_process x = some y ∨ pl.get_next_sibling x = .ok (some y)

/-- The next-sibling query collapsed to its miss-or-hit result (for
records of the snapshot the error branch is unreachable). -/
def nextSibO (pl : ProcessList) (x : Process) : Option Process :=
  match pl.get_next_sibling x with
  | .ok o => o
  | .error _ => none

/-- Fuel-bounded depth-first traversal by repeated
`get_first_child_process` / `get_next_sibling` queries: visit the current
position, then everything reachable from its first child, then everything
reachable from its next sibling. -/
def visitFrom (pl : ProcessList) : Nat → Option Process → List Process
  | _, none => []
  | 0, some _ => []
  | n + 1, some x =>
      x :: (visitFrom pl n (pl.get_first_child_process x) ++
            visitFrom pl n (nextSibO pl x))

/-- Iterated `get_parent_process` lookup. -/
def parentIter (pl : ProcessList) : Nat → Process → Option Process
  | 0, x => some x
  | n + 1, x =>
    match pl.get_parent_process x with
    | none => none
    | some y => parentIter pl n y

/-- Well-formedness of a snapshot with a single root, per the spec: pids
are pairwise distinct, `root` is a record of the snapshot whose ppid lies
outside the pid set, and every record's parent chain reaches `root` within
the size of the snapshot (which rules out cycles and other roots). -/
def wellFormed (pl : ProcessList) (root : Process) : Prop :=
  (pl.data.map Process.pid).Nodup ∧
  root ∈ pl.data ∧
  root.ppid ∉ pl.pids ∧
  ∀ x ∈ pl.data, ∃ k ∈ List.range (pl.data.length + 1), parentIter pl k x = some root

instance (pl : ProcessList) (root : Process) : Decidable (wellFormed pl root) := by
  unfold wellFormed
  infer_instance

/-- The records of the snapshot lying in the subtree rooted at `x`: those
whose parent chain reaches `x` within the size of the snapshot. -/
def descList (pl : ProcessList) (x : Process) : List Process :=
  pl.data.filter
    (fun y => (List.range (pl.data.length + 1)).any
      (fun k => decide (parentIter pl k y = some x)))

/-- The right siblings of `x`: the part of its children bucket after its
own position. -/
def sibTail (pl : ProcessList) (x : Process) : List Process :=
  match pl.nesting x.ppid with
  | none => []
  | some b =>
    match pyIndex b x with
    | .error _ => []
    | .ok i => b.drop (i + 1)

/-- Fuel needed to traverse `x`, its subtree and its right siblings'
subtrees. -/
def needFuel (pl : ProcessList) (x : Process) : Nat :=
  ((x :: sibTail pl x).map (fun s => (descList pl s).length)).sum

/-! ### Parent-chain lemmas -/

theorem parentIter_add (pl : ProcessList) (a b : Nat) (x : Process) :
    parentIter pl (a + b) x = (parentIter pl a x).bind (parentIter pl b) := by
  induction a generalizing x with
  | zero => simp [parentIter]
  | succ a ih =>
    have he : a + 1 + b = (a + b) + 1 := by omega
    rw [he]
    cases hpx : pl.get_parent_process x with
    | none => simp [parentIter, hpx]
    | some y => simp [parentIter, hpx, ih]

theorem parent_mem_data {pl : ProcessList} {x y : Process}
    (h : pl.get_parent_process x = some y) : y ∈ pl.data := by
  rw [ProcessList.get_parent_process, pid_index_eq] at h
  exact List.mem_of_mem_filter (getLast?_mem h)

theorem parent_pid {pl : ProcessList} {x y : Process}
    (h : pl.get_parent_process x = some y) : y.pid = x.ppid := by
  rw [ProcessList.get_parent_process, pid_index_eq] at h
  have := (List.mem_filter.1 (getLast?_mem h)).2
  simpa using this

theorem parentIter_mem_data {pl : ProcessList} {k : Nat} {x y : Process}
    (hx : x ∈ pl.data) (h : parentIter pl k x = some y) : y ∈ pl.data := by
  induction k generalizing x with
  | zero =>
    simp [parentIter] at h
    exact h ▸ hx
  | succ k ih =>
    rw [parentIter] at h
    cases hp : pl.get_parent_process x with
    | none => rw [hp] at h; exact absurd h (by simp)
    | some z => rw [hp] at h; exact ih (parent_mem_data hp) h

theorem filter_pid_eq_singleton {l : List Process} (hnd : (l.map Process.pid).Nodup)
    {x : Process} (hx : x ∈ l) :
    l.filter (fun y => decide (y.pid = x.pid)) = [x] := by
  induction l with
  | nil => cases hx
  | cons a t ih =>
    rw [List.map_cons, List.nodup_cons] at hnd
    cases List.mem_cons.1 hx with
    | inl he =>
      subst he
      rw [List.filter_cons_of_pos (by simp)]
      have hnone : ∀ y ∈ t, ¬ (y.pid = x.pid) := by
        intro y hy he2
        exact hnd.1 (he2 ▸ List.mem_map_of_mem Process.pid hy)
      rw [List.filter_eq_nil_iff.2 (by intro y hy; simpa using hnone y hy)]
    | inr ht =>
      have hne : ¬ (a.pid = x.pid) := by
        intro he2
        apply hnd.1
        rw [he2]
        exact List.mem_map_of_mem Process.pid ht
      rw [List.filter_cons_of_neg (by simpa using hne)]
      exact ih hnd.2 ht

theorem pid_index_self {pl : ProcessList} (hnd : (pl.data.map Process.pid).Nodup)
    {x : Process} (hx : x ∈ pl.data) : pl.pid_index x.pid = some x := by
  rw [pid_index_eq, filter_pid_eq_singleton hnd hx]
  rfl

theorem parent_of_child {pl : ProcessList} (hnd : (pl.data.map Process.pid).Nodup)
    {x c : Process} (hx : x ∈ pl.data)
    (hc : c ∈ pl.data.filter (fun y => decide (y.ppid = x.pid))) :
    pl.get_parent_process c = some x := by
  obtain ⟨hcd, hcp⟩ := mem_children_iff.1 hc
  rw [ProcessList.get_parent_process, hcp]
  exact pid_index_self hnd hx

theorem reach_unique_aux {pl : ProcessList} {root : Process} (hr : root.ppid ∉ pl.pids)
    {x : Process} {k1 k2 : Nat} (hle : k1 ≤ k2)
    (h1 : parentIter pl k1 x = some root) (h2 : parentIter pl k2 x = some root) :
    k1 = k2 := by
  have hsplit : parentIter pl (k1 + (k2 - k1)) x = some root := by
    rw [Nat.add_sub_cancel' hle]
    exact h2
  rw [parentIter_add, h1, Option.some_bind] at hsplit
  cases hd : k2 - k1 with
  | zero => omega
  | succ d =>
    rw [hd, parentIter] at hsplit
    rw [(parent_none_iff pl root).2 hr] at hsplit
    exact absurd hsplit (by simp)

theorem reach_unique {pl : ProcessList} {root : Process} (hr : root.ppid ∉ pl.pids)
    {x : Process} {k1 k2 : Nat}
    (h1 : parentIter pl k1 x = some root) (h2 : parentIter pl k2 x = some root) :
    k1 = k2 := by
  rcases Nat.le_total k1 k2 with h | h
  · exact reach_unique_aux hr h h1 h2
  · exact (reach_unique_aux hr h h2 h1).symm

theorem parentIter_one (pl : ProcessList) (c : Process) :
    parentIter pl 1 c = pl.get_parent_process c := by
  rw [parentIter]
  cases hp : pl.get_parent_process c <;> simp [parentIter]

theorem reach_in_range {pl : ProcessList} {root : Process} (hw : wellFormed pl root)
    {x y : Process} (hx : x ∈ pl.data) (hy : y ∈ pl.data) {k : Nat}
    (h : parentIter pl k y = some x) :
    k ∈ List.range (pl.data.length + 1) := by
  obtain ⟨hnd, hrd, hrp, hall⟩ := hw
  obtain ⟨ky, hky, hkyr⟩ := hall y hy
  obtain ⟨kx, hkx, hkxr⟩ := hall x hx
  have hcomp : parentIter pl (k + kx) y = some root := by
    rw [parentIter_add, h, Option.some_bind]
    exact hkxr
  have heq := reach_unique hrp hcomp hkyr
  rw [List.mem_range] at hky ⊢
  omega

theorem mem_descList_iff {pl : ProcessList} {root : Process} (hw : wellFormed pl root)
    {x : Process} (hx : x ∈ pl.data) {y : Process} :
    y ∈ descList pl x ↔ y ∈ pl.data ∧ ∃ k, parentIter pl k y = some x := by
  rw [descList, List.mem_filter]
  constructor
  · rintro ⟨hyd, hany⟩
    rw [List.any_eq_true] at hany
    obtain ⟨k, hk1, hk2⟩ := hany
    exact ⟨hyd, k, of_decide_eq_true hk2⟩
  · rintro ⟨hyd, k, hk⟩
    refine ⟨hyd, ?_⟩
    rw [List.any_eq_true]
    exact ⟨k, reach_in_range hw hx hyd hk, decide_eq_true hk⟩

theorem self_mem_descList {pl : ProcessList} {root : Process} (hw : wellFormed pl root)
    {x : Process} (hx : x ∈ pl.data) : x ∈ descList pl x :=
  (mem_descList_iff hw hx).2 ⟨hx, 0, rfl⟩

theorem desc_not_cyclic {pl : ProcessList} {root : Process} (hw : wellFormed pl root)
    {x c : Process} (hx : x ∈ pl.data) (hparent : pl.get_parent_process c = some x)
    {k : Nat} (h : parentIter pl k x = some c) : False := by
  obtain ⟨hnd, hrd, hrp, hall⟩ := hw
  obtain ⟨r, hrr, hrx⟩ := hall x hx
  have hcyc : parentIter pl (k + 1) x = some x := by
    rw [parentIter_add, h, Option.some_bind, parentIter_one, hparent]
  have hloop : parentIter pl ((k + 1) + r) x = some root := by
    rw [parentIter_add, hcyc, Option.some_bind]
    exact hrx
  have := reach_unique hrp hloop hrx
  omega

theorem mem_descList_cases {pl : ProcessList} {root : Process} (hw : wellFormed pl root)
    {x : Process} (hx : x ∈ pl.data) {y : Process} (hy : y ∈ descList pl x) :
    y = x ∨ ∃ c ∈ pl.data.filter (fun z => decide (z.ppid = x.pid)), y ∈ descList pl c := by
  obtain ⟨hyd, k, hk⟩ := (mem_descList_iff hw hx).1 hy
  cases k with
  | zero =>
    left
    simpa [parentIter] using hk
  | succ k =>
    right
    rw [parentIter_add] at hk
    cases hc : parentIter pl k y with
    | none => rw [hc] at hk; simp at hk
    | some c =>
      rw [hc, Option.some_bind, parentIter_one] at hk
      have hcd : c ∈ pl.data := parentIter_mem_data hyd hc
      have hcp : c.ppid = x.pid := (parent_pid hk).symm
      refine ⟨c, mem_children_iff.2 ⟨hcd, hcp⟩, ?_⟩
      exact (mem_descList_iff hw hcd).2 ⟨hyd, k, hc⟩

theorem descList_child_subset {pl : ProcessList} {root : Process} (hw : wellFormed pl root)
    {x c : Process} (hx : x ∈ pl.data)
    (hc : c ∈ pl.data.filter (fun z => decide (z.ppid = x.pid))) {y : Process}
    (hy : y ∈ descList pl c) : y ∈ descList pl x := by
  have hcd : c ∈ pl.data := List.mem_of_mem_filter hc
  obtain ⟨hyd, k, hk⟩ := (mem_descList_iff hw hcd).1 hy
  refine (mem_descList_iff hw hx).2 ⟨hyd, k + 1, ?_⟩
  rw [parentIter_add, hk, Option.some_bind, parentIter_one]
  exact parent_of_child hw.1 hx hc

theorem self_not_mem_child_desc {pl : ProcessList} {root : Process} (hw : wellFormed pl root)
    {x c : Process} (hx : x ∈ pl.data)
    (hc : c ∈ pl.data.filter (fun z => decide (z.ppid = x.pid))) :
    x ∉ descList pl c := by
  intro hmem
  have hcd : c ∈ pl.data := List.mem_of_mem_filter hc
  obtain ⟨hxd, k, hk⟩ := (mem_descList_iff hw hcd).1 hmem
  exact desc_not_cyclic hw hx (parent_of_child hw.1 hx hc) hk

theorem child_desc_disjoint {pl : ProcessList} {root : Process} (hw : wellFormed pl root)
    {x : Process} (hx : x ∈ pl.data) {c1 c2 : Process}
    (hc1 : c1 ∈ pl.data.filter (fun z => decide (z.ppid = x.pid)))
    (hc2 : c2 ∈ pl.data.filter (fun z => decide (z.ppid = x.pid)))
    (hne : c1 ≠ c2) {y : Process}
    (hy1 : y ∈ descList pl c1) (hy2 : y ∈ descList pl c2) : False := by
  have hc1d : c1 ∈ pl.data := List.mem_of_mem_filter hc1
  have hc2d : c2 ∈ pl.data := List.mem_of_mem_filter hc2
  obtain ⟨hyd, k1, hk1⟩ := (mem_descList_iff hw hc1d).1 hy1
  obtain ⟨hyd2, k2, hk2⟩ := (mem_descList_iff hw hc2d).1 hy2
  have h1 : parentIter pl (k1 + 1) y = some x := by
    rw [parentIter_add, hk1, Option.some_bind, parentIter_one]
    exact parent_of_child hw.1 hx hc1
  have h2 : parentIter pl (k2 + 1) y = some x := by
    rw [parentIter_add, hk2, Option.some_bind, parentIter_one]
    exact parent_of_child hw.1 hx hc2
  obtain ⟨r, hrr, hrx⟩ := hw.2.2.2 x hx
  have g1 : parentIter pl ((k1 + 1) + r) y = some root := by
    rw [parentIter_add, h1, Option.some_bind]
    exact hrx
  have g2 : parentIter pl ((k2 + 1) + r) y = some root := by
    rw [parentIter_add, h2, Option.some_bind]
    exact hrx
  have heq := reach_unique hw.2.2.1 g1 g2
  have hk12 : k1 = k2 := by omega
  subst hk12
  rw [hk1] at hk2
  exact hne (Option.some.inj hk2)

theorem descList_partition {pl : ProcessList} {root : Process} (hw : wellFormed pl root)
    {x : Process} (hx : x ∈ pl.data) :
    (descList pl x).Perm
      (x :: (pl.data.filter (fun z => decide (z.ppid = x.pid))).flatMap (descList pl)) := by
  have hdata : pl.data.Nodup := List.Nodup.of_map _ hw.1
  have hnl : (descList pl x).Nodup := hdata.filter _
  have hnchild : (pl.data.filter (fun z => decide (z.ppid = x.pid))).Nodup := hdata.filter _
  have hnr : (x :: (pl.data.filter
      (fun z => decide (z.ppid = x.pid))).flatMap (descList pl)).Nodup := by
    rw [List.nodup_cons]
    constructor
    · intro hmem
      rw [List.mem_flatMap] at hmem
      obtain ⟨c, hc, hxc⟩ := hmem
      exact self_not_mem_child_desc hw hx hc hxc
    · rw [List.nodup_flatMap]
      refine ⟨fun c hc => hdata.filter _, ?_⟩
      apply List.Pairwise.imp_of_mem ?_ hnchild
      intro c1 c2 hc1 hc2 hne y hy1 hy2
      exact child_desc_disjoint hw hx hc1 hc2 hne hy1 hy2
  have hmemiff : ∀ y, y ∈ descList pl x ↔
      y ∈ x :: (pl.data.filter (fun z => decide (z.ppid = x.pid))).flatMap (descList pl) := by
    intro y
    rw [List.mem_cons, List.mem_flatMap]
    constructor
    · intro hy
      rcases mem_descList_cases hw hx hy with h | ⟨c, hc, hyc⟩
      · exact Or.inl h
      · exact Or.inr ⟨c, hc, hyc⟩
    · rintro (h | ⟨c, hc, hyc⟩)
      · rw [h]
        exact self_mem_descList hw hx
      · exact descList_child_subset hw hx hc hyc
  exact (hnl.subperm (fun y hy => (hmemiff y).1 hy)).antisymm
    (hnr.subperm (fun y hy => (hmemiff y).2 hy))

theorem descList_length_eq {pl : ProcessList} {root : Process} (hw : wellFormed pl root)
    {x : Process} (hx : x ∈ pl.data) :
    (descList pl x).length =
      1 + ((pl.data.filter (fun z => decide (z.ppid = x.pid))).map
        (fun c => (descList pl c).length)).sum := by
  rw [(descList_partition hw hx).length_eq, List.length_cons, List.length_flatMap]
  rw [show (List.length ∘ descList pl) = (fun c => (descList pl c).length) from rfl]
  omega

/-! ### Sibling-suffix lemmas -/

theorem first_child_of_mem {pl : ProcessList} {x : Process} (hx : x ∈ pl.data) :
    pl.get_first_child_process x =
      (pl.data.filter (fun z => decide (z.ppid = x.pid))).head? := by
  rw [first_child_eq_head?, nesting_eq, if_pos (pid_mem_pids hx)]
  rfl

theorem sibTail_no_bucket {pl : ProcessList} {x : Process} (h : x.ppid ∉ pl.pids) :
    sibTail pl x = [] := by
  simp only [sibTail]
  rw [nesting_eq, if_neg h]

theorem sibTail_eq_drop {pl : ProcessList} {x : Process} {b : List Process} {i : Nat}
    (hb : pl.nesting x.ppid = some b) (hi : pyIndex b x = .ok i) :
    sibTail pl x = b.drop (i + 1) := by
  simp only [sibTail, hb, hi]

theorem nextSibO_no_bucket {pl : ProcessList} {x : Process} (h : x.ppid ∉ pl.pids) :
    nextSibO pl x = none := by
  simp only [nextSibO, next_sibling_no_bucket h]

theorem nextSibO_eq {pl : ProcessList} {x : Process} {b : List Process} {i : Nat}
    (hb : pl.nesting x.ppid = some b) (hne : b ≠ []) (hi : pyIndex b x = .ok i) :
    nextSibO pl x = b[i + 1]? := by
  simp only [nextSibO, next_sibling_eq_of_index hb hne hi]

theorem visitFrom_none (pl : ProcessList) (f : Nat) : visitFrom pl f none = [] := by
  cases f <;> rfl

theorem visitFrom_succ_some (pl : ProcessList) (f : Nat) (x : Process) :
    visitFrom pl (f + 1) (some x) =
      x :: (visitFrom pl f (pl.get_first_child_process x) ++
            visitFrom pl f (nextSibO pl x)) := rfl

/-! ### The traversal permutation -/

theorem visitFrom_perm {pl : ProcessList} {root : Process} (hw : wellFormed pl root) :
    ∀ (f : Nat) (x : Process), x ∈ pl.data → needFuel pl x ≤ f →
      (visitFrom pl f (some x)).Perm ((x :: sibTail pl x).flatMap (descList pl)) := by
  have hdata : pl.data.Nodup := List.Nodup.of_map _ hw.1
  intro f
  induction f with
  | zero =>
    intro x hx hneed
    exfalso
    have h1 : 0 < (descList pl x).length :=
      List.length_pos.2 (List.ne_nil_of_mem (self_mem_descList hw hx))
    rw [needFuel, List.map_cons, List.sum_cons] at hneed
    omega
  | succ f ih =>
    intro x hx hneed
    have hpos : 0 < (descList pl x).length :=
      List.length_pos.2 (List.ne_nil_of_mem (self_mem_descList hw hx))
    have hlen := descList_length_eq hw hx
    have hneedx : needFuel pl x =
        (descList pl x).length +
          ((sibTail pl x).map (fun c => (descList pl c).length)).sum := by
      rw [needFuel, List.map_cons, List.sum_cons]
    have hA : (visitFrom pl f (pl.get_first_child_process x)).Perm
        ((pl.data.filter (fun z => decide (z.ppid = x.pid))).flatMap (descList pl)) := by
      cases hch : pl.data.filter (fun z => decide (z.ppid = x.pid)) with
      | nil =>
        rw [first_child_of_mem hx, hch, List.head?_nil, visitFrom_none]
        exact List.Perm.refl _
      | cons c0 cr =>
        have hfc : pl.get_first_child_process x = some c0 := by
          rw [first_child_of_mem hx, hch, List.head?_cons]
        have hc0 : c0 ∈ pl.data.filter (fun z => decide (z.ppid = x.pid)) := by
          rw [hch]
          exact List.mem_cons_self c0 cr
        obtain ⟨hc0d, hc0p⟩ := mem_children_iff.1 hc0
        have hbc0 : pl.nesting c0.ppid =
            some (pl.data.filter (fun z => decide (z.ppid = x.pid))) := by
          rw [hc0p, nesting_eq, if_pos (pid_mem_pids hx)]
        have hpi : pyIndex (pl.data.filter (fun z => decide (z.ppid = x.pid))) c0 = .ok 0 := by
          rw [hch]
          simp [pyIndex]
        have hst : sibTail pl c0 = cr := by
          rw [sibTail_eq_drop hbc0 hpi, hch]
          rfl
        have hneedc0 : needFuel pl c0 ≤ f := by
          have he : needFuel pl c0 =
              ((pl.data.filter (fun z => decide (z.ppid = x.pid))).map
                (fun c => (descList pl c).length)).sum := by
            rw [needFuel, hst, hch]
          omega
        rw [hfc]
        have := ih c0 hc0d hneedc0
        rw [hst] at this
        exact this
    have hB : (visitFrom pl f (nextSibO pl x)).Perm
        ((sibTail pl x).flatMap (descList pl)) := by
      by_cases hp : x.ppid ∈ pl.pids
      · have hb : pl.nesting x.ppid =
            some (pl.data.filter (fun z => decide (z.ppid = x.ppid))) := by
          rw [nesting_eq, if_pos hp]
        have hxb : x ∈ pl.data.filter (fun z => decide (z.ppid = x.ppid)) :=
          mem_children_iff.2 ⟨hx, rfl⟩
        obtain ⟨i, hi, hgi⟩ := pyIndex_mem hxb
        have hne : pl.data.filter (fun z => decide (z.ppid = x.ppid)) ≠ [] :=
          List.ne_nil_of_mem hxb
        have hstx : sibTail pl x =
            (pl.data.filter (fun z => decide (z.ppid = x.ppid))).drop (i + 1) :=
          sibTail_eq_drop hb hi
        have hnso : nextSibO pl x =
            (pl.data.filter (fun z => decide (z.ppid = x.ppid)))[i + 1]? :=
          nextSibO_eq hb hne hi
        cases hdr : (pl.data.filter (fun z => decide (z.ppid = x.ppid))).drop (i + 1) with
        | nil =>
          have hnone : nextSibO pl x = none := by
            rw [hnso, ← List.head?_drop, hdr]
            rfl
          rw [hnone, visitFrom_none, hstx, hdr]
          exact List.Perm.refl _
        | cons s rest =>
          have hsome : (pl.data.filter (fun z => decide (z.ppid = x.ppid)))[i + 1]? =
              some s := by
            rw [← List.head?_drop, hdr, List.head?_cons]
          have hsmem : s ∈ pl.data.filter (fun z => decide (z.ppid = x.ppid)) := by
            obtain ⟨hl, he⟩ := List.getElem?_eq_some_iff.1 hsome
            exact he ▸ List.getElem_mem hl
          obtain ⟨hsd, hsp⟩ := mem_children_iff.1 hsmem
          have hbs : pl.nesting s.ppid =
              some (pl.data.filter (fun z => decide (z.ppid = x.ppid))) := by
            rw [hsp]
            exact hb
          have hpis : pyIndex (pl.data.filter (fun z => decide (z.ppid = x.ppid))) s =
              .ok (i + 1) :=
            pyIndex_of_getElem (hdata.filter _) hsome
          have hsts : sibTail pl s = rest := by
            rw [sibTail_eq_drop hbs hpis, ← List.tail_drop, hdr]
            rfl
          have hneeds : needFuel pl s ≤ f := by
            have he : needFuel pl s =
                ((sibTail pl x).map (fun c => (descList pl c).length)).sum := by
              rw [needFuel, hsts, hstx, hdr, List.map_cons, List.sum_cons]
            omega
          rw [hnso, hsome]
          have := ih s hsd hneeds
          rw [hsts] at this
          rw [hstx, hdr]
          exact this
      · rw [nextSibO_no_bucket hp, visitFrom_none, sibTail_no_bucket hp]
        exact List.Perm.refl _
    rw [visitFrom_succ_some]
    have hstep : (x :: (visitFrom pl f (pl.get_first_child_process x) ++
        visitFrom pl f (nextSibO pl x))).Perm
        (x :: ((pl.data.filter (fun z => decide (z.ppid = x.pid))).flatMap (descList pl) ++
          (sibTail pl x).flatMap (descList pl))) :=
      List.Perm.cons x (hA.append hB)
    refine hstep.trans ?_
    rw [← List.cons_append, List.flatMap_cons]
    exact ((descList_partition hw hx).symm.append (List.Perm.refl _))

theorem nextSibO_some {pl : ProcessList} {x s : Process} (h : nextSibO pl x = some s) :
    pl.get_next_sibling x = .ok (some s) := by
  simp only [nextSibO] at h
  cases hg : pl.get_next_sibling x with
  | ok o =>
    rw [hg] at h
    simp at h
    exact congrArg Except.ok h
  | error e =>
    rw [hg] at h
    simp at h

theorem visitFrom_reachable {pl : ProcessList} :
    ∀ (f : Nat) (x y : Process), y ∈ visitFrom pl f (some x) →
      Relation.ReflTransGen (navStep pl) x y := by
  intro f
  induction f with
  | zero =>
    intro x y h
    cases h
  | succ f ih =>
    intro x y h
    rw [visitFrom_succ_some, List.mem_cons, List.mem_append] at h
    rcases h with h | h | h
    · subst h
      exact Relation.ReflTransGen.refl
    · cases hfc : pl.get_first_child_process x with
      | none => rw [hfc, visitFrom_none] at h; cases h
      | some c =>
        rw [hfc] at h
        exact Relation.ReflTransGen.head (Or.inl hfc) (ih c y h)
    · cases hns : nextSibO pl x with
      | none => rw [hns, visitFrom_none] at h; cases h
      | some s =>
        rw [hns] at h
        exact Relation.ReflTransGen.head (Or.inr (nextSibO_some hns)) (ih s y h)

/-- C9: for a well-formed snapshot with a single root — pairwise-distinct
pids, a root record whose ppid lies outside the pid set, and every
record's parent chain reaching that root — every record other than the
root is reachable from the root via repeated `get_first_child_process` /
`get_next_sibling` steps, and the depth-first traversal driven by those
two queries visits each record of the snapshot exactly once: with fuel the
size of the snapshot it produces a permutation of the snapshot's records,
which are pairwise distinct. -/
theorem C9_traversal_visits_all_once (rows : List TopRow) (root : Process)
    (hw : wellFormed (ProcessList.build rows) root) :
    (∀ y ∈ (ProcessList.build rows).data, y ≠ root →
      Relation.ReflTransGen (navStep (ProcessList.build rows)) root y) ∧
    (visitFrom (ProcessList.build rows) (ProcessList.build rows).data.length
      (some root)).Perm (ProcessList.build rows).data := by
  have hroot : root ∈ (ProcessList.build rows).data := hw.2.1
  have hst : sibTail (ProcessList.build rows) root = [] := sibTail_no_bucket hw.2.2.1
  have hdesc : descList (ProcessList.build rows) root = (ProcessList.build rows).data := by
    apply List.filter_eq_self.2
    intro y hy
    rw [List.any_eq_true]
    obtain ⟨k, hk1, hk2⟩ := hw.2.2.2 y hy
    exact ⟨k, hk1, decide_eq_true hk2⟩
  have hneed : needFuel (ProcessList.build rows) root ≤
      (ProcessList.build rows).data.length := by
    simp [needFuel, hst, hdesc]
  have hperm : (visitFrom (ProcessList.build rows) (ProcessList.build rows).data.length
      (some root)).Perm (ProcessList.build rows).data := by
    have hmain := visitFrom_perm hw (ProcessList.build rows).data.length root hroot hneed
    rw [hst] at hmain
    simpa [hdesc] using hmain
  refine ⟨?_, hperm⟩
  intro y hy hne
  exact visitFrom_reachable _ root y (hperm.mem_iff.2 hy)

/-- C9 witness: the snapshot `[{1,0},{5,1},{6,1}]` is well-formed with the
pid-1 record as single root, and the traversal claim holds on it. -/
theorem C9_witness :
    wellFormed (ProcessList.build [⟨"1", "0", "init"⟩, ⟨"5", "1", "a"⟩, ⟨"6", "1", "b"⟩])
      ⟨0, "1", "0", "init"⟩ ∧
    ((∀ y ∈ (ProcessList.build [⟨"1", "0", "init"⟩, ⟨"5", "1", "a"⟩, ⟨"6", "1", "b"⟩]).data,
        y ≠ ⟨0, "1", "0", "init"⟩ →
        Relation.ReflTransGen
          (navStep (ProcessList.build [⟨"1", "0", "init"⟩, ⟨"5", "1", "a"⟩, ⟨"6", "1", "b"⟩]))
          ⟨0, "1", "0", "init"⟩ y) ∧
     (visitFrom (ProcessList.build [⟨"1", "0", "init"⟩, ⟨"5", "1", "a"⟩, ⟨"6", "1", "b"⟩])
        (ProcessList.build [⟨"1", "0", "init"⟩, ⟨"5", "1", "a"⟩, ⟨"6", "1", "b"⟩]).data.length
        (some ⟨0, "1", "0", "init"⟩)).Perm
       (ProcessList.build [⟨"1", "0", "init"⟩, ⟨"5", "1", "a"⟩, ⟨"6", "1", "b"⟩]).data) :=
  ⟨by decide, C9_traversal_visits_all_once _ _ (by decide)⟩
